import Mathlib

/-!
Verification of the fractal-flames sampling and histogram engine
(sources: src/main.rs, src/main1.rs, src/bin/serial.rs).

The Rust code is shallowly embedded:
* histograms (`HashMap<(i32,i32), ((f64,f64,f64), u32)>`) become association
  lists over `(Int × Int)` keys, queried through `hfind`; the `entry` /
  `or_insert` API becomes `setEntry` / `orInsertAll`;
* `f64` arithmetic that the claims depend on only structurally is embedded over
  an arbitrary field with the transcendental functions abstracted as a
  `MathOps` record; exact rational instances are used for concrete evaluation;
* the `f64` special-value behaviour that claim C6 is about (0.0/0.0 = NaN,
  `NaN as i32 = 0`, saturating casts, `f64::min`/`f64::max` NaN handling) is
  embedded by the carrier `F` with finite values represented exactly by `ℚ`;
* `rand::distributions::WeightedIndex` construction and sampling are embedded
  over `ℚ` (`WeightedIndex.new`, `WeightedIndex.sample`);
* the MPI all-gather of unequal serialized payloads and the subsequent
  offset-driven chunking and `or_insert` merge of src/main1.rs `main` become
  `splitBySizes` / `mergeGlobal`, parameterized by the serialization codec.
-/

/-- RGB color triple; the Rust code uses `(f64, f64, f64)`, embedded here with
exact rational components. -/
abbrev Color : Type := ℚ × ℚ × ℚ

/-- Pixel key `(i32, i32)` of the histogram `HashMap`. -/
abbrev PixelKey : Type := Int × Int

/-- Histogram value `((f64,f64,f64), u32)`: blended color and hit count. -/
abbrev HVal : Type := Color × Nat

/-- A histogram: the `HashMap<(i32,i32), ((f64,f64,f64), u32)>` of the Rust
code, embedded as an association list queried only through `hfind`. -/
abbrev Histogram : Type := List (PixelKey × HVal)

/-- Lookup of a key in an association list (the read side of `HashMap`):
returns the value of the first matching entry. -/
def hfind {V : Type} (k : PixelKey) : List (PixelKey × V) → Option V
  | [] => none
  | (k', v) :: rest => if k = k' then some v else hfind k rest

/-- Write-through of `HashMap::entry(k)` followed by storing `v`: replaces the
first entry with key `k`, or appends a fresh entry when `k` is absent. -/
def setEntry {V : Type} (k : PixelKey) (v : V) : List (PixelKey × V) → List (PixelKey × V)
  | [] => [(k, v)]
  | (k', v') :: rest => if k = k' then (k, v) :: rest else (k', v') :: setEntry k v rest

/-- Option alternative: first result if present, otherwise the second.  Used to
state lookup lemmas about sequential merges. -/
def oor {V : Type} : Option V → Option V → Option V
  | some v, _ => some v
  | none, b => b

/-- The deserialization loop of src/main1.rs `main` (lines 377-387): walking
the gathered byte vector with a running offset, cutting one chunk per entry of
the gathered size vector.  `splitBySizes data (s :: rest)` takes the first `s`
bytes as the first worker's slice and recurses on the remainder. -/
def splitBySizes : List Nat → List Nat → List (List Nat)
  | _, [] => []
  | data, s :: rest => data.take s :: splitBySizes (data.drop s) rest

/-- The per-chunk merge of src/main1.rs `main`: for every deserialized entry,
`global_histogram.entry(entry.key).or_insert(entry.value)` — the entry is
inserted only when the key is absent; an existing entry is left untouched. -/
def orInsertAll (acc : Histogram) (entries : Histogram) : Histogram :=
  entries.foldl (fun a e => if (hfind e.1 a).isSome then a else a ++ [e]) acc

/-- The global-histogram construction of src/main1.rs `main`: split the
gathered bytes at the gathered sizes, deserialize each slice with `deser`, and
fold every slice into the accumulator with the `or_insert` merge. -/
def mergeGlobal (deser : List Nat → Histogram) (data : List Nat) (sizes : List Nat) :
    Histogram :=
  (splitBySizes data sizes).foldl (fun acc chunk => orInsertAll acc (deser chunk)) []

/-- Concrete worker payload used to exercise the distributed merge. -/
def exPayloadA : Histogram := [((0, 0), ((0, 0, 0), 1))]

/-- A second concrete worker payload sharing the pixel key `(0,0)` with
`exPayloadA` but carrying a different color and hit count. -/
def exPayloadB : Histogram := [((0, 0), ((1, 1, 1), 5)), ((2, 3), ((0, 0, 1), 2))]

/-- A concrete serializer giving the two example payloads byte strings of
different lengths. -/
def exSer (h : Histogram) : List Nat := List.replicate h.length 0

/-- The matching concrete deserializer for the two example payloads. -/
def exDeser (b : List Nat) : Histogram := if b.length = 1 then exPayloadA else exPayloadB

/-- Error cases of `rand::distributions::WeightedIndex::new` as used by
`IFS::chaos_game` (`NoItem`, `InvalidWeight`, `AllWeightsZero`). -/
inductive WeightedError : Type where
  | noItem
  | invalidWeight
  | allWeightsZero
deriving DecidableEq

/-- A constructed `WeightedIndex`: the running totals pushed before each
weight after the first (`cumulative_weights`), and the total weight. -/
structure WeightedIndex : Type where
  cumulativeWeights : List ℚ
  totalWeight : ℚ
deriving DecidableEq

/-- The accumulation loop of `WeightedIndex::new`: reject a negative weight,
push the running total, add the weight, continue. -/
def newLoop : ℚ → List ℚ → List ℚ → Except WeightedError (List ℚ × ℚ)
  | total, cum, [] => .ok (cum, total)
  | total, cum, w :: rest =>
    if w < 0 then .error .invalidWeight
    else newLoop (total + w) (cum ++ [total]) rest

/-- `WeightedIndex::new`: `NoItem` on an empty weight vector, `InvalidWeight`
on a negative weight (the first weight checked up front, the rest in the
loop), `AllWeightsZero` when the final total is zero. -/
def WeightedIndex.new : List ℚ → Except WeightedError WeightedIndex
  | [] => .error .noItem
  | w0 :: rest =>
    if w0 < 0 then .error .invalidWeight
    else
      (newLoop w0 [] rest).bind fun pr =>
        if pr.2 = 0 then .error .allWeightsZero else .ok ⟨pr.1, pr.2⟩

/-- `WeightedIndex::sample` at a uniform draw `u` from `[0, total)`: the
partition point of the cumulative-weight vector, i.e. the number of cumulative
weights not exceeding `u`. -/
def WeightedIndex.sample (wi : WeightedIndex) (u : ℚ) : Nat :=
  (wi.cumulativeWeights.takeWhile (fun w => decide (w ≤ u))).length

/-- Whether an `Except` value is an error (the case `unwrap` panics on). -/
def isErr {ε α : Type} : Except ε α → Bool
  | .error _ => true
  | .ok _ => false

instance {ε α : Type} [DecidableEq ε] [DecidableEq α] : DecidableEq (Except ε α) := fun a b =>
  match a, b with
  | .error x, .error y =>
    if h : x = y then .isTrue (by rw [h]) else .isFalse (by simp [h])
  | .ok x, .ok y =>
    if h : x = y then .isTrue (by rw [h]) else .isFalse (by simp [h])
  | .error _, .ok _ => .isFalse (by simp)
  | .ok _, .error _ => .isFalse (by simp)

/-- The iteration index list `[s, s+1, ..., s+n-1]` of a Rust
`for i in s..s+n` loop. -/
def iterRange : Nat → Nat → List Nat
  | _, 0 => []
  | s, n + 1 => s :: iterRange (s + 1) n

/-- The loop body of `IFS::chaos_game` (src/main.rs lines 106-114, src/main1.rs
lines 114-122): at iteration `i`, draw a transform index, apply that transform
to the running point, and record the new point tagged with the index when
`i >= 20`.  `sample i` is the index the weighted distribution yields at
iteration `i`; `apply` is transform application, abstract in the point type. -/
def chaosGameOrbit {α : Type} (sample : Nat → Nat) (apply : Nat → α → α) :
    List Nat → α → List (α × Nat)
  | [], _ => []
  | i :: rest, p =>
    let ti := sample i
    let p' := apply ti p
    (if 20 ≤ i then [(p', ti)] else []) ++ chaosGameOrbit sample apply rest p'

/-- `IFS::chaos_game` of src/main.rs: construct the weighted distribution from
the transform weights (a failing construction surfaces before the loop via
`unwrap`), then run iterations `0..iterations`.  `us i` is the uniform draw the
sampler consumes at iteration `i`. -/
def chaosGame {α : Type} (ws : List ℚ) (us : Nat → ℚ) (apply : Nat → α → α) (p0 : α)
    (iterations : Nat) : Except WeightedError (List (α × Nat)) :=
  (WeightedIndex.new ws).map fun wi =>
    chaosGameOrbit (fun i => wi.sample (us i)) apply (iterRange 0 iterations) p0

/-- `IFS::chaos_game` of src/main1.rs: the distributed variant runs the global
iteration range `rank*(iterations/size) .. (rank+1)*(iterations/size)`, with
the same `i >= 20` recording test on the global index. -/
def chaosGameDist {α : Type} (ws : List ℚ) (us : Nat → ℚ) (apply : Nat → α → α) (p0 : α)
    (iterations rank size : Nat) : Except WeightedError (List (α × Nat)) :=
  (WeightedIndex.new ws).map fun wi =>
    chaosGameOrbit (fun i => wi.sample (us i)) apply
      (iterRange (rank * (iterations / size)) (iterations / size)) p0

/-- The concrete distribution `WeightedIndex.new [1]` constructs. -/
def wiEx : WeightedIndex := ⟨[], 1⟩

/-- The transcendental `f64` functions the transforms use, abstracted: the
claims about the variation pipeline are structural (which coordinates and
coefficients feed which formula), so the embedding is parametric in them;
concrete rational instances are used for evaluation. -/
structure MathOps (α : Type) where
  sin : α → α
  cos : α → α
  tan : α → α
  exp : α → α
  sqrt : α → α
  pi : α

/-- The `Variation` enum of src/main.rs and src/main1.rs (six cases, no
parameters). -/
inductive MainVariation : Type where
  | linear
  | sinusoidal
  | spherical
  | swirl
  | horseshoe
  | popcorn

/-- The `Variation` enum of src/bin/serial.rs: the six shared cases plus
`Exponential(scale)` and `Cosine(scale)`. -/
inductive Variation (α : Type) : Type where
  | linear
  | sinusoidal
  | spherical
  | swirl
  | horseshoe
  | popcorn
  | exponential (scale : α)
  | cosine (scale : α)

/-- `AffineTransform` of src/main.rs and src/main1.rs: six affine
coefficients, a selection weight, a single variation, and a color. -/
structure MainAffineTransform (α : Type) where
  a : α
  b : α
  c : α
  d : α
  e : α
  f : α
  weight : α
  variation : MainVariation
  color : α × α × α

/-- `AffineTransform` of src/bin/serial.rs: six affine coefficients, a
selection weight, an ordered variation list, and a color. -/
structure SerialAffineTransform (α : Type) where
  a : α
  b : α
  c : α
  d : α
  e : α
  f : α
  weight : α
  variations : List (Variation α)
  color : α × α × α

/-- `AffineTransform::apply` of src/main.rs lines 64-89 (identical in
src/main1.rs): the affine stage is a simultaneous tuple assignment from the
input point, the radius is taken of the post-affine point, and the single
variation is applied; `popcorn` reads both post-affine coordinates. -/
def MainAffineTransform.apply {α : Type} [Field α] (ops : MathOps α)
    (t : MainAffineTransform α) (p : α × α) : α × α :=
  let x := t.a * p.1 + t.b * p.2 + t.c
  let y := t.d * p.1 + t.e * p.2 + t.f
  let r := ops.sqrt (x * x + y * y)
  match t.variation with
  | .linear => (x, y)
  | .sinusoidal => (ops.sin x, ops.sin y)
  | .spherical => (x / (r * r), y / (r * r))
  | .swirl => (x * ops.sin r - y * ops.cos r, x * ops.cos r + y * ops.sin r)
  | .horseshoe => ((x - y) / r, (x + y) / r)
  | .popcorn =>
    (x + t.c * ops.sin (ops.tan (3 * y)), y + t.f * ops.sin (ops.tan (3 * x)))

/-- One iteration of the variation loop of src/bin/serial.rs
`AffineTransform::apply` (lines 73-110).  The radius `r` is whatever the
caller supplies — the code computes it once before the loop.  `popcorn`
mutates `x` first and computes the `y` update from the already-updated `x`;
`exponential` and `cosine` read each coordinate's own pre-update value. -/
def serialVarStep {α : Type} [Field α] (ops : MathOps α) (t : SerialAffineTransform α)
    (r : α) (p : α × α) : Variation α → α × α
  | .linear => p
  | .sinusoidal => (ops.sin p.1, ops.sin p.2)
  | .spherical => (p.1 / (r * r), p.2 / (r * r))
  | .swirl => (p.1 * ops.sin r - p.2 * ops.cos r, p.1 * ops.cos r + p.2 * ops.sin r)
  | .horseshoe => ((p.1 - p.2) / r, (p.1 + p.2) / r)
  | .popcorn =>
    let x := p.1 + t.c * ops.sin (ops.tan (3 * p.2))
    let y := p.2 + t.f * ops.sin (ops.tan (3 * x))
    (x, y)
  | .exponential s => (ops.exp p.1 * s * ops.cos p.1, ops.exp p.2 * s * ops.sin p.2)
  | .cosine s => (ops.cos (ops.pi * p.1) * s * p.1, ops.cos (ops.pi * p.2) * s * p.2)

/-- The affine stage of src/bin/serial.rs `AffineTransform::apply` (lines
68-69): sequential assignments, so `y` is computed from the already-updated
`x`. -/
def SerialAffineTransform.applyAffine {α : Type} [Field α]
    (t : SerialAffineTransform α) (p : α × α) : α × α :=
  let x := t.a * p.1 + t.b * p.2 + t.c
  let y := t.d * x + t.e * p.2 + t.f
  (x, y)

/-- `AffineTransform::apply` of src/bin/serial.rs: the sequential affine
stage, the radius computed once from the post-affine point, then the variation
list folded over the point with that fixed radius. -/
def SerialAffineTransform.apply {α : Type} [Field α] (ops : MathOps α)
    (t : SerialAffineTransform α) (p : α × α) : α × α :=
  let p1 := t.applyAffine p
  let r := ops.sqrt (p1.1 * p1.1 + p1.2 * p1.2)
  t.variations.foldl (serialVarStep ops t r) p1

/-- Modelled from the spec's words (§4.1, claim C5): the same variation loop
but with the radius recomputed from the pipeline's current point immediately
before each variation is applied. -/
def serialApplyRecomputeR {α : Type} [Field α] (ops : MathOps α)
    (t : SerialAffineTransform α) (p : α × α) : α × α :=
  let p1 := t.applyAffine p
  t.variations.foldl
    (fun q v => serialVarStep ops t (ops.sqrt (q.1 * q.1 + q.2 * q.2)) q v) p1

/-- Modelled from the spec's words (§4.1, claim C9): Cosine(scale) sending
`(x, y)` to `(cos(π·x)·scale·x, cos(π·y)·scale·x)` — the second output
component also using `x`. -/
def cosineClaimed {α : Type} [Field α] (ops : MathOps α) (s : α) (p : α × α) : α × α :=
  (ops.cos (ops.pi * p.1) * s * p.1, ops.cos (ops.pi * p.2) * s * p.1)

/-- All-identity transcendental functions over `ℚ`, for concrete evaluation of
the structural counterexamples. -/
def qOpsId : MathOps ℚ := ⟨id, id, id, id, id, 0⟩

/-- Concrete functions over `ℚ` with constant sine 1, exercising the
stale-radius behaviour of the serial variation pipeline. -/
def qOpsSinOne : MathOps ℚ := ⟨fun _ => 1, id, id, id, id, 0⟩

/-- Concrete functions over `ℚ` with constant cosine 1, isolating the Cosine
variation's multiplication structure. -/
def qOpsCosOne : MathOps ℚ := ⟨id, fun _ => 1, id, id, id, 0⟩

/-- Serial transform with coefficients `(0,0,1,1,0,0)` and variation list
`[Linear]`, exercising the sequential affine stage. -/
def exAffineS : SerialAffineTransform ℚ := ⟨0, 0, 1, 1, 0, 0, 1, [.linear], (0, 0, 0)⟩

/-- The transform of `exAffineS` in the main.rs representation. -/
def exAffineM : MainAffineTransform ℚ := ⟨0, 0, 1, 1, 0, 0, 1, .linear, (0, 0, 0)⟩

/-- Serial transform with `c = f = 1` and variation list `[Popcorn]`. -/
def exPopS : SerialAffineTransform ℚ := ⟨1, 0, 1, 0, 1, 1, 1, [.popcorn], (0, 0, 0)⟩

/-- The transform of `exPopS` in the main.rs representation. -/
def exPopM : MainAffineTransform ℚ := ⟨1, 0, 1, 0, 1, 1, 1, .popcorn, (0, 0, 0)⟩

/-- Identity-affine serial transform with the two-variation list
`[Sinusoidal, Horseshoe]`. -/
def exTwoVarS : SerialAffineTransform ℚ :=
  ⟨1, 0, 0, 0, 1, 0, 1, [.sinusoidal, .horseshoe], (0, 0, 0)⟩

/-- Identity-affine serial transform with the single variation `Cosine(1)`. -/
def exCosS : SerialAffineTransform ℚ := ⟨1, 0, 0, 0, 1, 0, 1, [.cosine 1], (0, 0, 0)⟩

/-- `color_map` (src/main.rs lines 8-22): clamp the value to `[0,1]` and
interpolate componentwise from blue `(0,0,1)` to red `(1,0,0)`. -/
def colorMap (value : ℚ) : Color :=
  let v := min (max value 0) 1
  (0 + v * (1 - 0), 0 + v * (0 - 0), 1 + v * (0 - 1))

/-- The componentwise blend `(c1 + c2) / 2` used by the accumulators. -/
def avg2 (c1 c2 : Color) : Color :=
  ((c1.1 + c2.1) / 2, (c1.2.1 + c2.2.1) / 2, (c1.2.2 + c2.2.2) / 2)

/-- One step of `IFS::create_histogram` of src/main.rs lines 142-156 (same in
src/bin/serial.rs lines 194-208): look up or create the pixel's entry with
initial `(transform_color, 0)`, increment hits, then blend — with the entry's
current color when this is not the first hit, with the reference color `c`
when it is. -/
def histStep (c : Color) (colors : List Color) (h : Histogram)
    (pk : PixelKey × Nat) : Histogram :=
  let tc := colors.getD pk.2 (0, 0, 0)
  let v := (hfind pk.1 h).getD (tc, 0)
  let hits := v.2 + 1
  let col := if 1 < hits then avg2 v.1 tc else avg2 c tc
  setEntry pk.1 (col, hits) h

/-- `IFS::create_histogram` of src/main.rs: fold the pixel points into an
empty histogram, `c` being the reference color drawn once per build. -/
def createHistogram (c : Color) (colors : List Color)
    (pts : List (PixelKey × Nat)) : Histogram :=
  pts.foldl (histStep c colors) []

/-- One step of the rayon fold in `IFS::create_histogram` of src/main1.rs
lines 176-190: as `histStep` but with no reference color and no else branch —
a first hit keeps the created entry's transform color unchanged. -/
def histStep1 (colors : List Color) (h : Histogram) (pk : PixelKey × Nat) : Histogram :=
  let tc := colors.getD pk.2 (0, 0, 0)
  let v := (hfind pk.1 h).getD (tc, 0)
  let hits := v.2 + 1
  let col := if 1 < hits then avg2 v.1 tc else v.1
  setEntry pk.1 (col, hits) h

/-- The rayon reduce of `IFS::create_histogram` in src/main1.rs lines 191-204:
fold a partial histogram into the accumulator — each entry is created with
`(color, 0)` when absent, its hits increased by the partial count, and its
color unconditionally blended with the partial color. -/
def histMerge (acc h : Histogram) : Histogram :=
  h.foldl
    (fun a kv =>
      let v := (hfind kv.1 a).getD (kv.2.1, 0)
      setEntry kv.1 (avg2 v.1 kv.2.1, v.2 + kv.2.2) a) acc

/-- `IFS::create_histogram` of src/main1.rs: per-slice fold with `histStep1`,
then reduction of the per-slice results with `histMerge`, parameterized by the
slicing rayon chooses. -/
def main1CreateHistogram (colors : List Color)
    (chunks : List (List (PixelKey × Nat))) : Histogram :=
  (chunks.map fun ch => ch.foldl (histStep1 colors) []).foldl histMerge []

/-- The invariant that every histogram entry has at least one hit — true of
every accumulator-reachable histogram, and what sends the accumulation step
into its not-first-hit branch for an existing entry. -/
def HistPos (h : Histogram) : Prop := ∀ k v, hfind k h = some v → 1 ≤ v.2

/-- An `f64` value as the coordinate normalizer observes it: a finite value
(represented exactly by a rational), NaN, or a signed infinity. -/
inductive F : Type where
  | fin (q : ℚ)
  | nan
  | pinf
  | ninf
deriving DecidableEq

/-- Whether the value is NaN. -/
def F.isNan : F → Bool
  | .nan => true
  | _ => false

/-- IEEE-754 subtraction on embedded values, finite arithmetic exact;
NaN absorbs, `inf - inf` is NaN. -/
def F.sub : F → F → F
  | .nan, _ => .nan
  | _, .nan => .nan
  | .fin a, .fin b => .fin (a - b)
  | .fin _, .pinf => .ninf
  | .fin _, .ninf => .pinf
  | .pinf, .fin _ => .pinf
  | .pinf, .pinf => .nan
  | .pinf, .ninf => .pinf
  | .ninf, .fin _ => .ninf
  | .ninf, .pinf => .ninf
  | .ninf, .ninf => .nan

/-- IEEE-754 division: `0.0/0.0` and `inf/inf` are NaN, a nonzero finite
value over zero is a signed infinity. -/
def F.div : F → F → F
  | .nan, _ => .nan
  | _, .nan => .nan
  | .fin a, .fin b =>
    if b = 0 then (if a = 0 then .nan else if 0 < a then .pinf else .ninf)
    else .fin (a / b)
  | .fin _, .pinf => .fin 0
  | .fin _, .ninf => .fin 0
  | .pinf, .fin b => if 0 ≤ b then .pinf else .ninf
  | .ninf, .fin b => if 0 ≤ b then .ninf else .pinf
  | .pinf, _ => .nan
  | .ninf, _ => .nan

/-- IEEE-754 multiplication: NaN absorbs, `0 * inf` is NaN. -/
def F.mul : F → F → F
  | .nan, _ => .nan
  | _, .nan => .nan
  | .fin a, .fin b => .fin (a * b)
  | .fin a, .pinf => if a = 0 then .nan else if 0 < a then .pinf else .ninf
  | .fin a, .ninf => if a = 0 then .nan else if 0 < a then .ninf else .pinf
  | .pinf, .fin b => if b = 0 then .nan else if 0 < b then .pinf else .ninf
  | .ninf, .fin b => if b = 0 then .nan else if 0 < b then .ninf else .pinf
  | .pinf, .pinf => .pinf
  | .pinf, .ninf => .ninf
  | .ninf, .pinf => .ninf
  | .ninf, .ninf => .pinf

/-- Order comparison on non-NaN values: `ninf < fin q < pinf`. -/
def F.fle : F → F → Bool
  | .ninf, _ => true
  | _, .pinf => true
  | .fin a, .fin b => decide (a ≤ b)
  | _, _ => false

/-- `f64::min`: a NaN argument yields the other argument. -/
def F.fmin (a b : F) : F :=
  if a.isNan then b else if b.isNan then a else if a.fle b then a else b

/-- `f64::max`: a NaN argument yields the other argument. -/
def F.fmax (a b : F) : F :=
  if a.isNan then b else if b.isNan then a else if a.fle b then b else a

/-- `f64::round`: round half away from zero; NaN and infinities unchanged. -/
def F.round : F → F
  | .fin q => .fin (if 0 ≤ q then ((⌊q + 1 / 2⌋ : ℤ) : ℚ) else ((⌈q - 1 / 2⌉ : ℤ) : ℚ))
  | x => x

/-- Truncation of a rational toward zero. -/
def ratTrunc (q : ℚ) : ℤ := if 0 ≤ q then ⌊q⌋ else ⌈q⌉

/-- Rust's saturating `as i32` cast: NaN to 0, infinities and out-of-range
values to the `i32` extremes, finite values truncated toward zero. -/
def F.toI32 : F → Int
  | .nan => 0
  | .pinf => 2 ^ 31 - 1
  | .ninf => -(2 ^ 31)
  | .fin q => max (-(2 ^ 31)) (min (2 ^ 31 - 1) (ratTrunc q))

/-- `IFS::transform_to_pixels` (src/main.rs lines 124-135, the same in
src/main1.rs and src/bin/serial.rs): fold the coordinate extrema with infinite
initial accumulators and `f64::min`/`f64::max`, then map every point through
`round((v - min)/(max - min) * extent) as i32`, emitting
`(pixel_x, height - pixel_y)` to invert the y axis. -/
def transformToPixels (points : List ((F × F) × Nat)) (width height : Nat) :
    List ((Int × Int) × Nat) :=
  let minX := (points.map fun pr => pr.1.1).foldl F.fmin F.pinf
  let maxX := (points.map fun pr => pr.1.1).foldl F.fmax F.ninf
  let minY := (points.map fun pr => pr.1.2).foldl F.fmin F.pinf
  let maxY := (points.map fun pr => pr.1.2).foldl F.fmax F.ninf
  points.map fun pr =>
    let px := ((((pr.1.1.sub minX).div (maxX.sub minX)).mul (F.fin width)).round).toI32
    let py := ((((pr.1.2.sub minY).div (maxY.sub minY)).mul (F.fin height)).round).toI32
    ((px, (height : Int) - py), pr.2)

-- ### Lookup lemmas for the association-list embedding

theorem hfind_append {V : Type} (k : PixelKey) (l₁ l₂ : List (PixelKey × V)) :
    hfind k (l₁ ++ l₂) = oor (hfind k l₁) (hfind k l₂) := by
  induction l₁ with
  | nil => simp [hfind, oor]
  | cons e rest ih =>
    obtain ⟨k', v⟩ := e
    by_cases h : k = k' <;> simp [hfind, h, ih, oor]

theorem oor_none_right {V : Type} (a : Option V) : oor a none = a := by
  cases a <;> rfl

theorem oor_assoc {V : Type} (a b c : Option V) : oor (oor a b) c = oor a (oor b c) := by
  cases a <;> rfl

theorem orInsertAll_hfind (k : PixelKey) (acc es : Histogram) :
    hfind k (orInsertAll acc es) = oor (hfind k acc) (hfind k es) := by
  induction es generalizing acc with
  | nil => simp [orInsertAll, hfind, oor_none_right]
  | cons e rest ih =>
    obtain ⟨ke, ve⟩ := e
    show hfind k (orInsertAll (if (hfind ke acc).isSome then acc else acc ++ [(ke, ve)]) rest) = _
    by_cases hpres : (hfind ke acc).isSome
    · rw [if_pos hpres, ih]
      by_cases hk : k = ke
      · subst hk
        obtain ⟨w, hw⟩ := Option.isSome_iff_exists.mp hpres
        simp [hfind, hw, oor]
      · simp [hfind, hk]
    · rw [if_neg hpres, ih, hfind_append]
      have hnone : hfind ke acc = none := Option.not_isSome_iff_eq_none.mp hpres
      by_cases hk : k = ke
      · subst hk
        simp [hfind, hnone, oor]
      · simp [hfind, hk, oor_none_right]

theorem foldl_orInsertAll_hfind (k : PixelKey) :
    ∀ (chunks : List Histogram) (acc : Histogram),
      hfind k (chunks.foldl orInsertAll acc) = oor (hfind k acc) (hfind k chunks.flatten) := by
  intro chunks
  induction chunks with
  | nil => intro acc; simp [hfind, oor_none_right]
  | cons c rest ih =>
    intro acc
    simp only [List.foldl_cons, ih, List.flatten_cons, hfind_append, orInsertAll_hfind,
      oor_assoc]

theorem splitBySizes_flatten (chunks : List (List Nat)) :
    splitBySizes chunks.flatten (chunks.map List.length) = chunks := by
  induction chunks with
  | nil => rfl
  | cons c rest ih =>
    simp only [List.flatten_cons, List.map_cons, splitBySizes,
      List.take_left, List.drop_left, ih]

/-- C1: after deserializing every worker's slice, with slice boundaries taken
from the gathered (possibly unequal) byte-length vector, the global histogram
of src/main1.rs is a first-write-wins-per-key reduction: looking a pixel key up
in the merged histogram returns the first entry for that key in the
concatenation of the workers' payloads in merge order, so for a key present in
several workers' histograms both the color and the hit count come from the
worker merged first and hits of later workers are not added. -/
theorem c1_firstWriteWinsMerge (payloads : List Histogram)
    (ser : Histogram → List Nat) (deser : List Nat → Histogram)
    (hrt : ∀ p ∈ payloads, deser (ser p) = p) (k : PixelKey) :
    hfind k (mergeGlobal deser (payloads.map ser).flatten
        (payloads.map fun p => (ser p).length)) =
      hfind k payloads.flatten := by
  have hsizes : (payloads.map fun p => (ser p).length) = (payloads.map ser).map List.length := by
    simp
  have hsplit : splitBySizes (payloads.map ser).flatten ((payloads.map ser).map List.length) =
      payloads.map ser := splitBySizes_flatten (payloads.map ser)
  have hchunks : (payloads.map ser).map deser = payloads := by
    have h1 : List.map (deser ∘ ser) payloads = List.map id payloads :=
      List.map_congr_left fun p hp => hrt p hp
    rw [List.map_map, h1, List.map_id]
  unfold mergeGlobal
  rw [hsizes, hsplit]
  have hfold : (payloads.map ser).foldl (fun acc chunk => orInsertAll acc (deser chunk)) [] =
      ((payloads.map ser).map deser).foldl orInsertAll [] :=
    (List.foldl_map deser orInsertAll (payloads.map ser) []).symm
  rw [hfold, hchunks, foldl_orInsertAll_hfind]
  simp [hfind, oor]

/-- Witness for C1 at two concrete worker payloads of unequal serialized
length that share the pixel key `(0,0)`. -/
theorem c1_firstWriteWinsMerge_witness :
    (∀ p ∈ [exPayloadA, exPayloadB], exDeser (exSer p) = p) ∧
      hfind (0, 0) (mergeGlobal exDeser ([exPayloadA, exPayloadB].map exSer).flatten
          ([exPayloadA, exPayloadB].map fun p => (exSer p).length)) =
        hfind (0, 0) ([exPayloadA, exPayloadB]).flatten :=
  ⟨by decide, c1_firstWriteWinsMerge [exPayloadA, exPayloadB] exSer exDeser (by decide) (0, 0)⟩

-- ### Facts about the weighted-index construction and sampler

theorem newLoop_ok_facts :
    ∀ (rest : List ℚ) (t : ℚ) (c cum : List ℚ) (total : ℚ),
      newLoop t c rest = .ok (cum, total) →
        cum.length = c.length + rest.length ∧ total = t + rest.sum ∧ ∀ w ∈ rest, 0 ≤ w := by
  intro rest
  induction rest with
  | nil =>
    intro t c cum total h
    simp only [newLoop, Except.ok.injEq, Prod.mk.injEq] at h
    obtain ⟨h1, h2⟩ := h
    subst h1; subst h2
    simp
  | cons w tl ih =>
    intro t c cum total h
    simp only [newLoop] at h
    by_cases hw : w < 0
    · rw [if_pos hw] at h; exact absurd h (by simp)
    · rw [if_neg hw] at h
      obtain ⟨hlen, hsum, hnn⟩ := ih (t + w) (c ++ [t]) cum total h
      refine ⟨?_, ?_, ?_⟩
      · simp only [List.length_append, List.length_cons, List.length_nil] at hlen ⊢
        omega
      · rw [hsum, List.sum_cons]; ring
      · intro v hv
        rcases List.mem_cons.mp hv with h' | h'
        · exact h' ▸ not_lt.mp hw
        · exact hnn v h'

theorem newLoop_neg :
    ∀ (rest : List ℚ) (t : ℚ) (c : List ℚ), (∃ w ∈ rest, w < 0) →
      newLoop t c rest = .error .invalidWeight := by
  intro rest
  induction rest with
  | nil =>
    rintro t c ⟨w, hw, _⟩
    simp at hw
  | cons w tl ih =>
    rintro t c ⟨v, hv, hvneg⟩
    simp only [newLoop]
    by_cases hw : w < 0
    · rw [if_pos hw]
    · rw [if_neg hw]
      apply ih
      rcases List.mem_cons.mp hv with h' | h'
      · exact absurd (h' ▸ hvneg) hw
      · exact ⟨v, h', hvneg⟩

theorem newLoop_nonneg_ok :
    ∀ (rest : List ℚ) (t : ℚ) (c : List ℚ), (∀ w ∈ rest, 0 ≤ w) →
      ∃ cum, newLoop t c rest = .ok (cum, t + rest.sum) := by
  intro rest
  induction rest with
  | nil =>
    intro t c _
    exact ⟨c, by simp [newLoop]⟩
  | cons w tl ih =>
    intro t c hnn
    have hw : 0 ≤ w := hnn w (by simp)
    obtain ⟨cum, hcum⟩ := ih (t + w) (c ++ [t]) fun v hv => hnn v (by simp [hv])
    refine ⟨cum, ?_⟩
    have hsum : t + (w :: tl).sum = t + w + tl.sum := by
      rw [List.sum_cons]; ring
    simp only [newLoop]
    rw [if_neg (not_lt.mpr hw), hsum]
    exact hcum

theorem new_ok_facts (ws : List ℚ) (wi : WeightedIndex)
    (hok : WeightedIndex.new ws = .ok wi) :
    wi.cumulativeWeights.length + 1 = ws.length ∧ 0 < wi.totalWeight := by
  cases ws with
  | nil => simp [WeightedIndex.new] at hok
  | cons w0 rest =>
    simp only [WeightedIndex.new] at hok
    by_cases h0 : w0 < 0
    · rw [if_pos h0] at hok; exact absurd hok (by simp)
    · rw [if_neg h0] at hok
      cases hloop : newLoop w0 [] rest with
      | error e => rw [hloop] at hok; exact absurd hok (by simp [Except.bind])
      | ok pr =>
        obtain ⟨cum, total⟩ := pr
        rw [hloop] at hok
        simp only [Except.bind] at hok
        by_cases ht : total = 0
        · rw [if_pos ht] at hok; exact absurd hok (by simp)
        · rw [if_neg ht] at hok
          injection hok with h
          subst h
          obtain ⟨hlen, hsum, hnn⟩ := newLoop_ok_facts rest w0 [] cum total hloop
          constructor
          · simp only [List.length_nil, Nat.zero_add] at hlen
            simp only [List.length_cons]
            omega
          · have hge : 0 ≤ total := by
              rw [hsum]
              exact add_nonneg (not_lt.mp h0) (List.sum_nonneg hnn)
            exact lt_of_le_of_ne hge (Ne.symm ht)

theorem sample_lt (ws : List ℚ) (wi : WeightedIndex)
    (hok : WeightedIndex.new ws = .ok wi) (u : ℚ) : wi.sample u < ws.length := by
  have h := (new_ok_facts ws wi hok).1
  have hle : (wi.cumulativeWeights.takeWhile fun w => decide (w ≤ u)).length ≤
      wi.cumulativeWeights.length := (List.takeWhile_prefix _).length_le
  simp only [WeightedIndex.sample]
  omega

theorem isErr_map {ε α β : Type} (f : α → β) (e : Except ε α) :
    isErr (e.map f) = isErr e := by
  cases e <;> rfl

theorem new_err_of_neg (ws : List ℚ) (h : ∃ w ∈ ws, w < 0) :
    isErr (WeightedIndex.new ws) = true := by
  obtain ⟨w, hmem, hneg⟩ := h
  cases ws with
  | nil => simp at hmem
  | cons w0 rest =>
    simp only [WeightedIndex.new]
    by_cases h0 : w0 < 0
    · rw [if_pos h0]; rfl
    · rw [if_neg h0]
      have hrest : ∃ v ∈ rest, v < 0 := by
        rcases List.mem_cons.mp hmem with h' | h'
        · exact absurd (h' ▸ hneg) h0
        · exact ⟨w, h', hneg⟩
      rw [newLoop_neg rest w0 [] hrest]
      rfl

-- ### Orbit length and index provenance

theorem chaosGameOrbit_length {α : Type} (sample : Nat → Nat) (apply : Nat → α → α) :
    ∀ (n s : Nat) (p : α),
      (chaosGameOrbit sample apply (iterRange s n) p).length =
        n - (min 20 (s + n) - min 20 s) := by
  intro n
  induction n with
  | zero =>
    intro s p
    simp [iterRange, chaosGameOrbit]
  | succ m ih =>
    intro s p
    show ((if 20 ≤ s then [(apply (sample s) p, sample s)] else []) ++
        chaosGameOrbit sample apply (iterRange (s + 1) m) (apply (sample s) p)).length = _
    rw [List.length_append, ih]
    by_cases h : 20 ≤ s
    · rw [if_pos h]
      simp only [List.length_cons, List.length_nil]
      omega
    · rw [if_neg h]
      simp only [List.length_nil]
      omega

theorem chaosGameOrbit_indices {α : Type} (sample : Nat → Nat) (apply : Nat → α → α) :
    ∀ (is : List Nat) (p : α) (e : α × Nat), e ∈ chaosGameOrbit sample apply is p →
      ∃ i ∈ is, e.2 = sample i := by
  intro is
  induction is with
  | nil =>
    intro p e h
    simp [chaosGameOrbit] at h
  | cons i rest ih =>
    intro p e h
    have h' : e ∈ (if 20 ≤ i then [(apply (sample i) p, sample i)] else []) ++
        chaosGameOrbit sample apply rest (apply (sample i) p) := h
    rcases List.mem_append.mp h' with hh | hh
    · by_cases hi : 20 ≤ i
      · rw [if_pos hi] at hh
        have : e = (apply (sample i) p, sample i) := by simpa using hh
        exact ⟨i, by simp, by rw [this]⟩
      · rw [if_neg hi] at hh
        simp at hh
    · obtain ⟨j, hj, hje⟩ := ih _ e hh
      exact ⟨j, by simp [hj], hje⟩

/-- C7: a weight vector that is empty, contains a negative entry, or sums to
at most zero makes the weighted-selection construction (`WeightedIndex::new`,
run by `chaos_game` before its first iteration) fail with a configuration
error, so `chaos_game` itself fails before sampling; on a successfully
constructed distribution the total weight is positive and selection always
returns an in-bounds index, so selection never fails. -/
theorem c7_constructionFailure {α : Type} (ws : List ℚ) (us : Nat → ℚ)
    (apply : Nat → α → α) (p0 : α) (N : Nat) :
    ((ws = [] ∨ (∃ w ∈ ws, w < 0) ∨ ws.sum ≤ 0) →
        isErr (WeightedIndex.new ws) = true ∧ isErr (chaosGame ws us apply p0 N) = true) ∧
      ∀ wi, WeightedIndex.new ws = .ok wi →
        0 < wi.totalWeight ∧ ∀ u, wi.sample u < ws.length := by
  have herr : (ws = [] ∨ (∃ w ∈ ws, w < 0) ∨ ws.sum ≤ 0) →
      isErr (WeightedIndex.new ws) = true := by
    rintro (rfl | hneg | hsum)
    · rfl
    · exact new_err_of_neg ws hneg
    · by_cases hneg : ∃ w ∈ ws, w < 0
      · exact new_err_of_neg ws hneg
      · push_neg at hneg
        cases ws with
        | nil => rfl
        | cons w0 rest =>
          have h0 : 0 ≤ w0 := hneg w0 (by simp)
          obtain ⟨cum, hcum⟩ := newLoop_nonneg_ok rest w0 [] fun v hv => hneg v (by simp [hv])
          have htot : w0 + rest.sum = 0 := by
            have hle : w0 + rest.sum ≤ 0 := by simpa [List.sum_cons] using hsum
            have hge : 0 ≤ w0 + rest.sum :=
              add_nonneg h0 (List.sum_nonneg fun v hv => hneg v (by simp [hv]))
            linarith
          simp only [WeightedIndex.new]
          rw [if_neg (not_lt.mpr h0), hcum]
          simp only [Except.bind]
          rw [if_pos htot]
          rfl
  constructor
  · intro hbad
    refine ⟨herr hbad, ?_⟩
    rw [chaosGame, isErr_map]
    exact herr hbad
  · intro wi hok
    exact ⟨(new_ok_facts ws wi hok).2, fun u => sample_lt ws wi hok u⟩

/-- Witness for C7: construction fails on the empty weight vector (and so
does `chaos_game`), while the valid vector `[1]` constructs `wiEx` with
positive total weight and in-bounds selection at the draw `1/2`. -/
theorem c7_constructionFailure_witness :
    isErr (WeightedIndex.new ([] : List ℚ)) = true ∧
      isErr (chaosGame ([] : List ℚ) (fun _ => 0) (fun _ u => u) () 5) = true ∧
      (0 : ℚ) < wiEx.totalWeight ∧
      WeightedIndex.sample wiEx (1 / 2) < [(1 : ℚ)].length :=
  ⟨((c7_constructionFailure ([] : List ℚ) (fun _ => 0) (fun _ u => (u : Unit)) () 5).1
      (Or.inl rfl)).1,
    ((c7_constructionFailure ([] : List ℚ) (fun _ => 0) (fun _ u => u) () 5).1
      (Or.inl rfl)).2,
    ((c7_constructionFailure [(1 : ℚ)] (fun _ => 0) (fun _ u => (u : Unit)) () 5).2 wiEx
      (by rfl)).1,
    ((c7_constructionFailure [(1 : ℚ)] (fun _ => 0) (fun _ u => (u : Unit)) () 5).2 wiEx
      (by rfl)).2 (1 / 2)⟩

/-- C2 (amended): the serial sampler records iterations `20..N-1`, so for
`N ≥ 20` its orbit has exactly `N − 20` entries; in the distributed variant
the warmup test is on the global iteration index, so a worker covering
`[rank*(N/size), (rank+1)*(N/size))` records its share minus the overlap of
its range with the global warmup window `0..19` — a worker whose range starts
at or after 20 discards nothing. -/
theorem c2_warmupCounts {α : Type} (ws : List ℚ) (us : Nat → ℚ) (apply : Nat → α → α)
    (p0 : α) (N : Nat) :
    (∀ o, chaosGame ws us apply p0 N = .ok o → 20 ≤ N → o.length = N - 20) ∧
      ∀ rank size o, chaosGameDist ws us apply p0 N rank size = .ok o →
        o.length = N / size -
          (min 20 (rank * (N / size) + N / size) - min 20 (rank * (N / size))) := by
  constructor
  · intro o hok hN
    cases hnew : WeightedIndex.new ws with
    | error e =>
      rw [chaosGame, hnew] at hok
      exact absurd hok (by simp [Except.map])
    | ok wi =>
      rw [chaosGame, hnew] at hok
      simp only [Except.map] at hok
      injection hok with h
      rw [← h, chaosGameOrbit_length]
      omega
  · intro rank size o hok
    cases hnew : WeightedIndex.new ws with
    | error e =>
      rw [chaosGameDist, hnew] at hok
      exact absurd hok (by simp [Except.map])
    | ok wi =>
      rw [chaosGameDist, hnew] at hok
      simp only [Except.map] at hok
      injection hok with h
      rw [← h, chaosGameOrbit_length]

/-- Witness for C2 at `N = 30`: the serial orbit has `30 − 20 = 10` entries,
and worker 1 of 2 (range `15..30`) records `15 − 5 = 10` entries. -/
theorem c2_warmupCounts_witness :
    chaosGame [(1 : ℚ)] (fun _ => 0) (fun _ u => u) () 30 =
        .ok (List.replicate 10 (((), 0))) ∧
      (List.replicate 10 ((((), 0)) : Unit × Nat)).length = 30 - 20 ∧
      chaosGameDist [(1 : ℚ)] (fun _ => 0) (fun _ u => u) () 30 1 2 =
        .ok (List.replicate 10 (((), 0))) ∧
      (List.replicate 10 ((((), 0)) : Unit × Nat)).length =
        30 / 2 - (min 20 (1 * (30 / 2) + 30 / 2) - min 20 (1 * (30 / 2))) :=
  ⟨by rfl,
    (c2_warmupCounts [(1 : ℚ)] (fun _ => 0) (fun _ u => u) () 30).1
      (List.replicate 10 (((), 0))) (by rfl) (by decide),
    by rfl,
    (c2_warmupCounts [(1 : ℚ)] (fun _ => 0) (fun _ u => u) () 30).2 1 2
      (List.replicate 10 (((), 0))) (by rfl)⟩

/-- Counterexample for C2 as stated: with `N = 100` over `size = 2` workers,
worker `rank = 1` covers global iterations `50..99`, all of which pass the
global `i >= 20` test, so its orbit has all 50 entries of its share — not the
`100/2 − 20 = 30` that discarding its own 20 warmup iterations would leave. -/
theorem c2_warmup_counterexample :
    (chaosGameDist [(1 : ℚ)] (fun _ => 0) (fun _ u => u) () 100 1 2).map List.length =
        .ok 50 ∧ (50 : Nat) ≠ 100 / 2 - 20 := by
  constructor
  · rfl
  · decide

/-- C10: every (point, transform_index) pair returned by the serial sampler
carries an index strictly below the number of transforms (the sampler draws it
from the weighted distribution over exactly that many weights), so the
transform lookups during sampling and during histogram accumulation are in
bounds for every orbit the sampler can return. -/
theorem c10_indicesInBounds {α : Type} (ws : List ℚ) (us : Nat → ℚ) (apply : Nat → α → α)
    (p0 : α) (N : Nat) (o : List (α × Nat)) (hok : chaosGame ws us apply p0 N = .ok o) :
    ∀ e ∈ o, e.2 < ws.length := by
  intro e he
  cases hnew : WeightedIndex.new ws with
  | error e' =>
    rw [chaosGame, hnew] at hok
    exact absurd hok (by simp [Except.map])
  | ok wi =>
    rw [chaosGame, hnew] at hok
    simp only [Except.map] at hok
    injection hok with h
    rw [← h] at he
    obtain ⟨i, _, hei⟩ := chaosGameOrbit_indices _ apply _ p0 e he
    rw [hei]
    exact sample_lt ws wi hnew (us i)

/-- Witness for C10: the single-transform sampler at `N = 21` returns one
entry whose index 0 is below the transform count 1. -/
theorem c10_indicesInBounds_witness :
    chaosGame [(1 : ℚ)] (fun _ => 0) (fun _ u => u) () 21 = .ok [((), 0)] ∧ (0 : Nat) < 1 :=
  ⟨by rfl,
    c10_indicesInBounds [(1 : ℚ)] (fun _ => 0) (fun _ u => u) () 21 [((), 0)]
      (by rfl) ((), 0) (by decide)⟩

-- ### Transform application: structural claims

/-- C4 (code defect in src/bin/serial.rs): on the transform with coefficients
(a,b,c,d,e,f) = (0,0,1,1,0,0) and a no-op variation list, at input (0,0),
serial.rs computes the affine y output from the already-updated x and returns
(1,1), while main.rs computes both outputs from the same input point and
returns (1,0), as the claimed formula (a·x+b·y+c, d·x+e·y+f) demands. -/
theorem c4_affineSequentialUpdate :
    SerialAffineTransform.apply qOpsId exAffineS (0, 0) = (1, 1) ∧
      MainAffineTransform.apply qOpsId exAffineM (0, 0) = (1, 0) ∧
      ((1 : ℚ), (1 : ℚ)) ≠ ((1 : ℚ), (0 : ℚ)) := by
  refine ⟨?_, ?_, by norm_num [Prod.ext_iff]⟩
  · show ((0 : ℚ) * 0 + 0 * 0 + 1, 1 * (0 * 0 + 0 * 0 + 1) + 0 * 0 + 0) = ((1 : ℚ), (1 : ℚ))
    norm_num
  · show ((0 : ℚ) * 0 + 0 * 0 + 1, 1 * 0 + 0 * 0 + 0) = ((1 : ℚ), (0 : ℚ))
    norm_num

/-- C8 (code defect in src/bin/serial.rs): with sine and tangent read as the
identity for concreteness, on the popcorn transform with c = f = 1 at input
(0,0) (post-affine point (1,1)), serial.rs computes the popcorn y output from
the already-updated x and returns (4,13), while main.rs uses the pre-variation
x in both outputs and returns (4,4) as the claimed formula demands. -/
theorem c8_popcornSequentialUpdate :
    SerialAffineTransform.apply qOpsId exPopS (0, 0) = (4, 13) ∧
      MainAffineTransform.apply qOpsId exPopM (0, 0) = (4, 4) ∧
      (13 : ℚ) ≠ 4 := by
  refine ⟨?_, ?_, by norm_num⟩
  · show ((1 : ℚ) * 0 + 0 * 0 + 1 + 1 * (3 * (0 * (1 * 0 + 0 * 0 + 1) + 1 * 0 + 1)),
        0 * (1 * 0 + 0 * 0 + 1) + 1 * 0 + 1 +
          1 * (3 * ((1 : ℚ) * 0 + 0 * 0 + 1 + 1 * (3 * (0 * (1 * 0 + 0 * 0 + 1) + 1 * 0 + 1))))) =
      ((4 : ℚ), (13 : ℚ))
    norm_num
  · show ((1 : ℚ) * 0 + 0 * 0 + 1 + 1 * (3 * (0 * 0 + 1 * 0 + 1)),
        (0 : ℚ) * 0 + 1 * 0 + 1 + 1 * (3 * (1 * 0 + 0 * 0 + 1))) = ((4 : ℚ), (4 : ℚ))
    norm_num

/-- C5 (amended): in src/bin/serial.rs the radius is computed once, from the
post-affine point, before the variation loop; every variation in the sequence
— in particular the last one — receives that same radius, not one recomputed
from the pipeline's current point. -/
theorem c5_radiusComputedOnce {α : Type} [Field α] (ops : MathOps α)
    (t : SerialAffineTransform α) (p : α × α) (vs : List (Variation α)) (v : Variation α) :
    SerialAffineTransform.apply ops { t with variations := vs ++ [v] } p =
      serialVarStep ops t
        (ops.sqrt ((t.applyAffine p).1 * (t.applyAffine p).1 +
          (t.applyAffine p).2 * (t.applyAffine p).2))
        (SerialAffineTransform.apply ops { t with variations := vs } p) v := by
  have hfun : ∀ (l : List (Variation α)),
      serialVarStep ops { t with variations := l } = serialVarStep ops t := by
    intro l
    funext r q w
    cases w <;> rfl
  have haff : ∀ (l : List (Variation α)),
      SerialAffineTransform.applyAffine { t with variations := l } = t.applyAffine := by
    intro l
    funext q
    rfl
  simp only [SerialAffineTransform.apply, hfun, haff, List.foldl_append, List.foldl_cons,
    List.foldl_nil]

/-- Counterexample for C5 as stated: with sine read as the constant 1 and
square root as the identity, the identity-affine transform with variation list
[Sinusoidal, Horseshoe] at input (3,4) yields (0, 2/25) — the horseshoe step
divides by the stale radius 25 of the post-affine point — while recomputing
the radius before each variation, as the claim states, would yield (0, 1). -/
theorem c5_radius_counterexample :
    SerialAffineTransform.apply qOpsSinOne exTwoVarS (3, 4) ≠
      serialApplyRecomputeR qOpsSinOne exTwoVarS (3, 4) := by
  have h1 : SerialAffineTransform.apply qOpsSinOne exTwoVarS (3, 4) = (0, 2 / 25) := by
    simp only [SerialAffineTransform.apply, SerialAffineTransform.applyAffine, exTwoVarS,
      qOpsSinOne, serialVarStep, List.foldl_cons, List.foldl_nil, id]
    norm_num
  have h2 : serialApplyRecomputeR qOpsSinOne exTwoVarS (3, 4) = (0, 1) := by
    simp only [serialApplyRecomputeR, SerialAffineTransform.applyAffine, exTwoVarS,
      qOpsSinOne, serialVarStep, List.foldl_cons, List.foldl_nil, id]
    norm_num
  rw [h1, h2]
  intro h
  rw [Prod.ext_iff] at h
  norm_num at h

/-- C9 (amended): in src/bin/serial.rs, Cosine(s) maps the pipeline's current
point (x, y) to (cos(π·x)·s·x, cos(π·y)·s·y) — each output component uses its
own coordinate, not x in both. -/
theorem c9_cosineUsesOwnCoordinate {α : Type} [Field α] (ops : MathOps α)
    (t : SerialAffineTransform α) (s : α) (p : α × α) :
    SerialAffineTransform.apply ops { t with variations := [Variation.cosine s] } p =
      (ops.cos (ops.pi * (t.applyAffine p).1) * s * (t.applyAffine p).1,
        ops.cos (ops.pi * (t.applyAffine p).2) * s * (t.applyAffine p).2) := rfl

/-- Counterexample for C9 as stated: with cosine read as the constant 1 and
scale 1, the identity-affine Cosine transform sends (2,3) to (2,3), but the
claimed formula — whose second output uses x — gives (2,2). -/
theorem c9_cosine_counterexample :
    SerialAffineTransform.apply qOpsCosOne exCosS (2, 3) = (2, 3) ∧
      cosineClaimed qOpsCosOne 1 ((2 : ℚ), 3) = (2, 2) ∧
      ((2 : ℚ), (3 : ℚ)) ≠ ((2 : ℚ), (2 : ℚ)) := by
  refine ⟨?_, ?_, by norm_num [Prod.ext_iff]⟩
  · show ((1 : ℚ) * 1 * (1 * 2 + 0 * 3 + 0), 1 * 1 * (0 * (1 * 2 + 0 * 3 + 0) + 1 * 3 + 0)) =
      ((2 : ℚ), (3 : ℚ))
    norm_num
  · show ((1 : ℚ) * 1 * 2, (1 : ℚ) * 1 * 2) = ((2 : ℚ), (2 : ℚ))
    norm_num

-- ### Histogram accumulation

theorem hfind_setEntry {V : Type} (k k' : PixelKey) (v : V) (h : List (PixelKey × V)) :
    hfind k' (setEntry k v h) = if k' = k then some v else hfind k' h := by
  induction h with
  | nil => by_cases hk : k' = k <;> simp [setEntry, hfind, hk]
  | cons e rest ih =>
    obtain ⟨ke, ve⟩ := e
    by_cases hke : k = ke
    · subst hke
      by_cases hk : k' = k <;> simp [setEntry, hfind, hk]
    · show hfind k' (if k = ke then (k, v) :: rest else (ke, ve) :: setEntry k v rest) = _
      rw [if_neg hke]
      by_cases hk : k' = ke
      · subst hk
        have hne : ¬k' = k := fun hh => hke (hh ▸ rfl)
        simp [hfind, hne]
      · simp [hfind, hk, ih]

theorem histPos_nil : HistPos [] := by
  intro k v hv
  simp [hfind] at hv

theorem histPos_setEntry (h : Histogram) (k : PixelKey) (v : HVal) (hh : HistPos h)
    (hv : 1 ≤ v.2) : HistPos (setEntry k v h) := by
  intro k' v' hv'
  rw [hfind_setEntry] at hv'
  by_cases hk : k' = k
  · rw [if_pos hk] at hv'
    obtain rfl := Option.some_inj.mp hv'
    exact hv
  · rw [if_neg hk] at hv'
    exact hh k' v' hv'

theorem histPos_histStep (c : Color) (colors : List Color) (h : Histogram)
    (pk : PixelKey × Nat) (hh : HistPos h) : HistPos (histStep c colors h pk) := by
  apply histPos_setEntry _ _ _ hh
  omega

theorem histPos_histStep1 (colors : List Color) (h : Histogram)
    (pk : PixelKey × Nat) (hh : HistPos h) : HistPos (histStep1 colors h pk) := by
  apply histPos_setEntry _ _ _ hh
  omega

theorem histPos_fold (c : Color) (colors : List Color) :
    ∀ (pts : List (PixelKey × Nat)) (h : Histogram), HistPos h →
      HistPos (pts.foldl (histStep c colors) h) := by
  intro pts
  induction pts with
  | nil => intro h hh; exact hh
  | cons e rest ih => intro h hh; exact ih _ (histPos_histStep c colors h e hh)

theorem histPos_fold1 (colors : List Color) :
    ∀ (pts : List (PixelKey × Nat)) (h : Histogram), HistPos h →
      HistPos (pts.foldl (histStep1 colors) h) := by
  intro pts
  induction pts with
  | nil => intro h hh; exact hh
  | cons e rest ih => intro h hh; exact ih _ (histPos_histStep1 colors h e hh)

theorem histStep_hfind (c : Color) (colors : List Color) (h : Histogram)
    (p : PixelKey) (i : Nat) (hh : HistPos h) :
    hfind p (histStep c colors h (p, i)) =
      some (match hfind p h with
        | none => (avg2 c (colors.getD i (0, 0, 0)), 1)
        | some v => (avg2 v.1 (colors.getD i (0, 0, 0)), v.2 + 1)) := by
  dsimp only [histStep]
  rw [hfind_setEntry, if_pos rfl]
  cases hx : hfind p h with
  | none => simp
  | some v =>
    have hv : 1 ≤ v.2 := hh p v hx
    simp only [Option.getD_some]
    rw [if_pos (by omega : 1 < v.2 + 1)]

theorem histStep1_hfind (colors : List Color) (h : Histogram)
    (p : PixelKey) (i : Nat) (hh : HistPos h) :
    hfind p (histStep1 colors h (p, i)) =
      some (match hfind p h with
        | none => (colors.getD i (0, 0, 0), 1)
        | some v => (avg2 v.1 (colors.getD i (0, 0, 0)), v.2 + 1)) := by
  dsimp only [histStep1]
  rw [hfind_setEntry, if_pos rfl]
  cases hx : hfind p h with
  | none => simp
  | some v =>
    have hv : 1 ≤ v.2 := hh p v hx
    simp only [Option.getD_some]
    rw [if_pos (by omega : 1 < v.2 + 1)]

/-- C3 (amended): in the serial accumulators (src/main.rs and
src/bin/serial.rs, embedded as `createHistogram`) a pixel's first hit sets its
color to (reference_color + transform_color)/2 and every later hit replaces
the current color with (current + transform_color)/2, the hit count growing by
one each time; in the distributed accumulator's per-slice fold (src/main1.rs,
embedded as `histStep1`) there is no reference color — a pixel's first hit in
a slice keeps the transform color unchanged, and later hits blend as before. -/
theorem c3_histogramBlend (c : Color) (colors : List Color)
    (pts : List (PixelKey × Nat)) (p : PixelKey) (i : Nat) :
    (hfind p (createHistogram c colors (pts ++ [(p, i)])) =
      some (match hfind p (createHistogram c colors pts) with
        | none => (avg2 c (colors.getD i (0, 0, 0)), 1)
        | some v => (avg2 v.1 (colors.getD i (0, 0, 0)), v.2 + 1))) ∧
      hfind p ((pts ++ [(p, i)]).foldl (histStep1 colors) []) =
        some (match hfind p (pts.foldl (histStep1 colors) []) with
          | none => (colors.getD i (0, 0, 0), 1)
          | some v => (avg2 v.1 (colors.getD i (0, 0, 0)), v.2 + 1)) := by
  constructor
  · rw [createHistogram, List.foldl_append, List.foldl_cons, List.foldl_nil]
    exact histStep_hfind c colors _ p i (histPos_fold c colors pts [] histPos_nil)
  · rw [List.foldl_append, List.foldl_cons, List.foldl_nil]
    exact histStep1_hfind colors _ p i (histPos_fold1 colors pts [] histPos_nil)

/-- Counterexample for C3 as stated: the src/main1.rs accumulator on a single
point hitting pixel (0,0) whose transform color is (0,1,0) stores exactly
(0,1,0) — there is no reference color in that variant, and no possible
`color_map` reference value can blend to that result, since blending would
leave green component (0 + 1)/2 = 1/2, not 1. -/
theorem c3_referenceBlend_counterexample :
    ¬ ∃ v : ℚ, hfind (0, 0) (main1CreateHistogram [((0 : ℚ), 1, 0)] [[((0, 0), 0)]]) =
        some (avg2 (colorMap v) ((0 : ℚ), 1, 0), 1) := by
  rintro ⟨v, hv⟩
  have hL : hfind (0, 0) (main1CreateHistogram [((0 : ℚ), 1, 0)] [[((0, 0), 0)]]) =
      some ((((0 : ℚ), 1, 0) : Color), 1) := by
    show hfind (0, 0) (histMerge [] (histStep1 [((0 : ℚ), 1, 0)] [] ((0, 0), 0))) = _
    dsimp only [histStep1, histMerge, List.foldl]
    simp [hfind, setEntry, avg2]
  rw [hL] at hv
  have hg : (colorMap v).2.1 = 0 := by simp [colorMap]
  rw [Option.some_inj, Prod.ext_iff, Prod.ext_iff, Prod.ext_iff] at hv
  have := hv.1.2.1
  norm_num [avg2, hg] at this

-- ### Coordinate normalization under a degenerate axis

theorem fmin_const (q : ℚ) :
    ∀ (l : List F), (∀ a ∈ l, a = F.fin q) → l.foldl F.fmin (F.fin q) = F.fin q := by
  intro l
  induction l with
  | nil => intro _; rfl
  | cons a rest ih =>
    intro h
    have ha : a = F.fin q := h a (by simp)
    subst ha
    have hstep : F.fmin (F.fin q) (F.fin q) = F.fin q := by
      simp [F.fmin, F.isNan, F.fle]
    rw [List.foldl_cons, hstep]
    exact ih fun b hb => h b (by simp [hb])

theorem fmax_const (q : ℚ) :
    ∀ (l : List F), (∀ a ∈ l, a = F.fin q) → l.foldl F.fmax (F.fin q) = F.fin q := by
  intro l
  induction l with
  | nil => intro _; rfl
  | cons a rest ih =>
    intro h
    have ha : a = F.fin q := h a (by simp)
    subst ha
    have hstep : F.fmax (F.fin q) (F.fin q) = F.fin q := by
      simp [F.fmax, F.isNan, F.fle]
    rw [List.foldl_cons, hstep]
    exact ih fun b hb => h b (by simp [hb])

theorem fmin_all_eq (q : ℚ) (l : List F) (hne : l ≠ []) (h : ∀ a ∈ l, a = F.fin q) :
    l.foldl F.fmin F.pinf = F.fin q := by
  cases l with
  | nil => exact absurd rfl hne
  | cons a rest =>
    have ha : a = F.fin q := h a (by simp)
    subst ha
    have hstep : F.fmin F.pinf (F.fin q) = F.fin q := by
      simp [F.fmin, F.isNan, F.fle]
    rw [List.foldl_cons, hstep]
    exact fmin_const q rest fun b hb => h b (by simp [hb])

theorem fmax_all_eq (q : ℚ) (l : List F) (hne : l ≠ []) (h : ∀ a ∈ l, a = F.fin q) :
    l.foldl F.fmax F.ninf = F.fin q := by
  cases l with
  | nil => exact absurd rfl hne
  | cons a rest =>
    have ha : a = F.fin q := h a (by simp)
    subst ha
    have hstep : F.fmax F.ninf (F.fin q) = F.fin q := by
      simp [F.fmax, F.isNan, F.fle]
    rw [List.foldl_cons, hstep]
    exact fmax_const q rest fun b hb => h b (by simp [hb])

theorem degeneratePipeline (q : ℚ) (w : Nat) :
    (((((F.fin q).sub (F.fin q)).div ((F.fin q).sub (F.fin q))).mul (F.fin w)).round).toI32
      = 0 := by
  have h1 : (F.fin q).sub (F.fin q) = F.fin 0 := by simp [F.sub]
  rw [h1]
  have h2 : (F.fin 0).div (F.fin 0) = F.nan := by simp [F.div]
  rw [h2]
  rfl

/-- C6 (amended): when every input point shares one finite coordinate, the
normalizer divides `0.0` by `0.0`, the resulting NaN propagates through the
scaling and rounding, and the `as i32` cast turns it into 0, so every point
maps to a defined pixel.  The emitted pixel coordinate on the degenerate axis
is the constant 0 for the x axis; for the y axis the constant 0 is then
subtracted from `height`, so the emitted coordinate is `height`, not 0. -/
theorem c6_degenerateAxis (pts : List ((F × F) × Nat)) (w h : Nat) (q : ℚ) :
    ((∀ p ∈ pts, p.1.1 = F.fin q) →
        (transformToPixels pts w h).map (fun o => o.1.1) = List.replicate pts.length 0) ∧
      ((∀ p ∈ pts, p.1.2 = F.fin q) →
        (transformToPixels pts w h).map (fun o => o.1.2) =
          List.replicate pts.length ((h : Int))) := by
  constructor
  · intro hall
    cases pts with
    | nil => rfl
    | cons a rest =>
      have hxs : ∀ v ∈ (a :: rest).map (fun pr => pr.1.1), v = F.fin q := by
        intro v hv
        obtain ⟨p, hp, rfl⟩ := List.mem_map.mp hv
        exact hall p hp
      have hmin : ((a :: rest).map fun pr => pr.1.1).foldl F.fmin F.pinf = F.fin q :=
        fmin_all_eq q _ (by simp) hxs
      have hmax : ((a :: rest).map fun pr => pr.1.1).foldl F.fmax F.ninf = F.fin q :=
        fmax_all_eq q _ (by simp) hxs
      dsimp only [transformToPixels]
      rw [hmin, hmax, List.map_map]
      rw [List.eq_replicate_iff]
      refine ⟨by simp, ?_⟩
      intro b hb
      obtain ⟨p, hp, rfl⟩ := List.mem_map.mp hb
      show (((((p.1.1.sub (F.fin q)).div ((F.fin q).sub (F.fin q))).mul
          (F.fin w)).round).toI32) = 0
      rw [hall p hp]
      exact degeneratePipeline q w
  · intro hall
    cases pts with
    | nil => rfl
    | cons a rest =>
      have hys : ∀ v ∈ (a :: rest).map (fun pr => pr.1.2), v = F.fin q := by
        intro v hv
        obtain ⟨p, hp, rfl⟩ := List.mem_map.mp hv
        exact hall p hp
      have hmin : ((a :: rest).map fun pr => pr.1.2).foldl F.fmin F.pinf = F.fin q :=
        fmin_all_eq q _ (by simp) hys
      have hmax : ((a :: rest).map fun pr => pr.1.2).foldl F.fmax F.ninf = F.fin q :=
        fmax_all_eq q _ (by simp) hys
      dsimp only [transformToPixels]
      rw [hmin, hmax, List.map_map]
      rw [List.eq_replicate_iff]
      refine ⟨by simp, ?_⟩
      intro b hb
      obtain ⟨p, hp, rfl⟩ := List.mem_map.mp hb
      show (h : Int) -
          (((((p.1.2.sub (F.fin q)).div ((F.fin q).sub (F.fin q))).mul
            (F.fin h)).round).toI32) = (h : Int)
      rw [hall p hp, degeneratePipeline q h]
      ring

/-- Witness for C6: two points sharing the finite x coordinate 1 both map to
pixel x coordinate 0 in a 5 by 7 raster. -/
theorem c6_degenerateAxis_witness :
    (∀ p ∈ ([((F.fin 1, F.fin 2), 0), ((F.fin 1, F.fin 3), 1)] : List ((F × F) × Nat)),
      p.1.1 = F.fin 1) ∧
    (transformToPixels [((F.fin 1, F.fin 2), 0), ((F.fin 1, F.fin 3), 1)] 5 7).map
        (fun o => o.1.1) = List.replicate 2 0 :=
  ⟨by decide,
    (c6_degenerateAxis [((F.fin 1, F.fin 2), 0), ((F.fin 1, F.fin 3), 1)] 5 7 1).1 (by decide)⟩

/-- Counterexample for C6 as stated: two points sharing the y coordinate 5 in
a 10 by 10 raster both receive the emitted pixel y coordinate
`height - 0 = 10`, not the constant 0 the claim asserts for a degenerate
axis. -/
theorem c6_yAxis_counterexample :
    ((transformToPixels [((F.fin 1, F.fin 5), 0), ((F.fin 2, F.fin 5), 0)] 10 10).map
        fun o => o.1.2) = [10, 10] ∧ (10 : Int) ≠ 0 := by
  refine ⟨?_, by decide⟩
  norm_num [transformToPixels, F.fmin, F.fmax, F.isNan, F.fle, F.sub, F.div, F.mul,
    F.round, F.toI32]
